import Mathlib

/-!
A verification development for the flux control-plane transport layer.

The definitions below are a shallow embedding of the Go sources:
  * the structural diff oracle of `remote/mock.go` (`Diff`, `diffValue`,
    `diffArrayOrSlice`, `diffStruct`, `diffMap`, `sorted`),
  * the HTTP transport helpers of `http/transport.go` (`MakeURL`,
    `WriteError`, `JSONResponse`, `ErrorResponse`),
  * the HTTP client's response decoding (`http/client/client.go`,
    `executeRequest`), and
  * the daemon registration handler (`doRegister`).

Go's dynamic values are embedded as the inductive `Value` together with a
runtime-type function `tyOf` mirroring `reflect.TypeOf`.  Machinery that the
sources consume from elsewhere in the repository (the `flux` error types,
content negotiation, the websocket upgrade) is modelled from the spec and
marked as such.
-/

namespace FluxModel

/-! ### Byte-wise string comparison

Go's `strings.Compare` compares strings byte-wise; UTF-8 byte order agrees
with code-point order, so we model it as lexicographic comparison of the
character sequences (`String.data`). -/

/-- Lexicographic strict comparison of char lists, by code point. -/
def ltChars : List Char → List Char → Bool
  | [], [] => false
  | [], _ :: _ => true
  | _ :: _, [] => false
  | a :: as, b :: bs =>
    if a.toNat < b.toNat then true
    else if b.toNat < a.toNat then false
    else ltChars as bs

/-- Strict "less than" on strings, modelling `strings.Compare(a, b) == -1`. -/
def goStrLt (a b : String) : Bool :=
  ltChars a.data b.data

theorem char_toNat_inj : ∀ a b : Char, a.toNat = b.toNat → a = b := by
  intro a b h
  have hv : a.val = b.val := UInt32.ext h
  cases a; cases b
  simp only at hv
  subst hv
  rfl

theorem ltChars_irrefl : ∀ l : List Char, ltChars l l = false := by
  intro l
  induction l with
  | nil => rfl
  | cons a as ih => simp [ltChars, ih]

theorem ltChars_asymm : ∀ l m : List Char, ltChars l m = true → ltChars m l = false := by
  intro l
  induction l with
  | nil => intro m _; cases m <;> rfl
  | cons a as ih =>
    intro m hm
    cases m with
    | nil => exact absurd hm (by simp [ltChars])
    | cons b bs =>
      simp only [ltChars] at hm ⊢
      rcases Nat.lt_trichotomy a.toNat b.toNat with h | h | h
      · have h2 : ¬ b.toNat < a.toNat := Nat.lt_asymm h
        simp [h2, h]
      · have h1 : ¬ a.toNat < b.toNat := by omega
        have h2 : ¬ b.toNat < a.toNat := by omega
        simp [h1, h2] at hm ⊢
        exact ih bs hm
      · have h1 : ¬ a.toNat < b.toNat := Nat.lt_asymm h
        simp [h1, h] at hm

theorem ltChars_trans : ∀ l m k : List Char,
    ltChars l m = true → ltChars m k = true → ltChars l k = true := by
  intro l
  induction l with
  | nil =>
    intro m k hlm hmk
    cases m with
    | nil => simp [ltChars] at hlm
    | cons b bs =>
      cases k with
      | nil => simp [ltChars] at hmk
      | cons c cs => simp [ltChars]
  | cons a as ih =>
    intro m k hlm hmk
    cases m with
    | nil => simp [ltChars] at hlm
    | cons b bs =>
      cases k with
      | nil => simp [ltChars] at hmk
      | cons c cs =>
        simp only [ltChars] at hlm hmk ⊢
        rcases Nat.lt_trichotomy a.toNat b.toNat with hab | hab | hab
        · rcases Nat.lt_trichotomy b.toNat c.toNat with hbc | hbc | hbc
          · have : a.toNat < c.toNat := Nat.lt_trans hab hbc
            simp [this]
          · have : a.toNat < c.toNat := by omega
            simp [this]
          · have h1 : ¬ b.toNat < c.toNat := by omega
            simp [h1, hbc] at hmk
        · rcases Nat.lt_trichotomy b.toNat c.toNat with hbc | hbc | hbc
          · have : a.toNat < c.toNat := by omega
            simp [this]
          · have hac1 : ¬ a.toNat < c.toNat := by omega
            have hac2 : ¬ c.toNat < a.toNat := by omega
            have hab1 : ¬ a.toNat < b.toNat := by omega
            have hab2 : ¬ b.toNat < a.toNat := by omega
            have hbc1 : ¬ b.toNat < c.toNat := by omega
            have hbc2 : ¬ c.toNat < b.toNat := by omega
            simp [hab1, hab2] at hlm
            simp [hbc1, hbc2] at hmk
            simp [hac1, hac2]
            exact ih bs cs hlm hmk
          · have h1 : ¬ b.toNat < c.toNat := by omega
            simp [h1, hbc] at hmk
        · have h1 : ¬ a.toNat < b.toNat := by omega
          simp [h1, hab] at hlm

theorem ltChars_eq_of_not : ∀ l m : List Char,
    ltChars l m = false → ltChars m l = false → l = m := by
  intro l
  induction l with
  | nil =>
    intro m hlm _
    cases m with
    | nil => rfl
    | cons b bs => simp [ltChars] at hlm
  | cons a as ih =>
    intro m hlm hml
    cases m with
    | nil => simp [ltChars] at hml
    | cons b bs =>
      simp only [ltChars] at hlm hml
      rcases Nat.lt_trichotomy a.toNat b.toNat with h | h | h
      · simp [h] at hlm
      · have h1 : ¬ a.toNat < b.toNat := by omega
        have h2 : ¬ b.toNat < a.toNat := by omega
        simp [h1, h2] at hlm hml
        have := ih bs hlm hml
        rw [char_toNat_inj a b h, this]
      · simp [h] at hml

/-! ### The value universe of the diff oracle

`remote/mock.go` diffs arbitrary Go values through `reflect`.  We embed the
supported shape categories as the inductive `Value` (ground values, slices /
arrays, structs with exported-or-not fields, string-keyed maps, pointers that
may be nil, interface values and functions), and Go's runtime types
(`reflect.Type`) as `VTy` with `tyOf` playing the role of `reflect.TypeOf`.
A slice, map or pointer value carries its element type so that `tyOf` is
defined on empty and nil values, exactly as reflection is. -/

inductive VTy where
  | int
  | str
  | bool
  | slice (elem : VTy)
  | strukt (fields : List (String × VTy))
  | map (elem : VTy)
  | ptr (elem : VTy)
  | iface
  | func

inductive Value where
  | vint (n : Int)
  | vstr (s : String)
  | vbool (b : Bool)
  | vslice (elem : VTy) (xs : List Value)
  | vstruct (fields : List (String × Bool × Value))
  | vmap (elem : VTy) (entries : List (String × Value))
  | vptr (elem : VTy) (pointee : Option Value)
  | viface
  | vfunc

mutual
/-- The runtime type of a value, as `reflect.TypeOf` computes it.  A struct
field is `(name, exported?, value)`; its declared type is derived from the
value. -/
def tyOf : Value → VTy
  | .vint _ => .int
  | .vstr _ => .str
  | .vbool _ => .bool
  | .vslice elem _ => .slice elem
  | .vstruct fields => .strukt (tyOfFields fields)
  | .vmap elem _ => .map elem
  | .vptr elem _ => .ptr elem
  | .viface => .iface
  | .vfunc => .func

def tyOfFields : List (String × Bool × Value) → List (String × VTy)
  | [] => []
  | (n, _, v) :: rest => (n, tyOf v) :: tyOfFields rest
end

mutual
/-- Equality of runtime types, modelling Go's `typA != typB` comparison. -/
def tyBeq : VTy → VTy → Bool
  | .int, .int => true
  | .str, .str => true
  | .bool, .bool => true
  | .slice a, .slice b => tyBeq a b
  | .strukt fa, .strukt fb => tyFieldsBeq fa fb
  | .map a, .map b => tyBeq a b
  | .ptr a, .ptr b => tyBeq a b
  | .iface, .iface => true
  | .func, .func => true
  | _, _ => false

def tyFieldsBeq : List (String × VTy) → List (String × VTy) → Bool
  | [], [] => true
  | (n, t) :: fs, (m, u) :: gs => n == m && tyBeq t u && tyFieldsBeq fs gs
  | _, _ => false
end

theorem vty_sizeOf_pos : ∀ t : VTy, 1 ≤ sizeOf t := by
  intro t; cases t <;> simp_arith

theorem tyBeq_refl_bounded : ∀ n : Nat,
    (∀ t : VTy, sizeOf t ≤ n → tyBeq t t = true) ∧
    (∀ fs : List (String × VTy), sizeOf fs ≤ n → tyFieldsBeq fs fs = true) := by
  intro n
  induction n with
  | zero =>
    constructor
    · intro t ht; exact absurd ht (by have := vty_sizeOf_pos t; omega)
    · intro fs hfs
      cases fs with
      | nil => rfl
      | cons f rest => exact absurd hfs (by cases f; simp_arith at *)
  | succ n ih =>
    constructor
    · intro t ht
      cases t with
      | int => rfl
      | str => rfl
      | bool => rfl
      | iface => rfl
      | func => rfl
      | slice a =>
        have : sizeOf a ≤ n := by simp_arith at ht; omega
        simpa [tyBeq] using ih.1 a this
      | map a =>
        have : sizeOf a ≤ n := by simp_arith at ht; omega
        simpa [tyBeq] using ih.1 a this
      | ptr a =>
        have : sizeOf a ≤ n := by simp_arith at ht; omega
        simpa [tyBeq] using ih.1 a this
      | strukt fs =>
        have : sizeOf fs ≤ n := by simp_arith at ht; omega
        simpa [tyBeq] using ih.2 fs this
    · intro fs hfs
      cases fs with
      | nil => rfl
      | cons f rest =>
        obtain ⟨nm, t⟩ := f
        have h1 : sizeOf t ≤ n := by simp_arith at hfs; omega
        have h2 : sizeOf rest ≤ n := by simp_arith at hfs; omega
        simp [tyFieldsBeq, ih.1 t h1, ih.2 rest h2]

theorem tyBeq_refl (t : VTy) : tyBeq t t = true :=
  (tyBeq_refl_bounded (sizeOf t)).1 t (Nat.le_refl _)

theorem tyBeq_sound_bounded : ∀ n : Nat,
    (∀ t u : VTy, sizeOf t ≤ n → tyBeq t u = true → t = u) ∧
    (∀ fs gs : List (String × VTy), sizeOf fs ≤ n → tyFieldsBeq fs gs = true → fs = gs) := by
  intro n
  induction n with
  | zero =>
    constructor
    · intro t _ ht; exact absurd ht (by have := vty_sizeOf_pos t; omega)
    · intro fs gs hfs h
      cases fs with
      | nil => cases gs with
        | nil => rfl
        | cons g gs' => simp [tyFieldsBeq] at h
      | cons f rest => exact absurd hfs (by cases f; simp_arith at *)
  | succ n ih =>
    constructor
    · intro t u ht h
      cases t <;> cases u <;> simp [tyBeq] at h ⊢
      case slice.slice a b =>
        have : sizeOf a ≤ n := by simp_arith at ht; omega
        exact ih.1 a b this h
      case map.map a b =>
        have : sizeOf a ≤ n := by simp_arith at ht; omega
        exact ih.1 a b this h
      case ptr.ptr a b =>
        have : sizeOf a ≤ n := by simp_arith at ht; omega
        exact ih.1 a b this h
      case strukt.strukt fs gs =>
        have : sizeOf fs ≤ n := by simp_arith at ht; omega
        exact ih.2 fs gs this h
    · intro fs gs hfs h
      cases fs with
      | nil => cases gs with
        | nil => rfl
        | cons g gs' => simp [tyFieldsBeq] at h
      | cons f rest =>
        cases gs with
        | nil => cases f; simp [tyFieldsBeq] at h
        | cons g rest' =>
          obtain ⟨nm, t⟩ := f
          obtain ⟨nm', t'⟩ := g
          simp [tyFieldsBeq] at h
          obtain ⟨⟨hn, hb⟩, hrest⟩ := h
          have h1 : sizeOf t ≤ n := by simp_arith at hfs; omega
          have h2 : sizeOf rest ≤ n := by simp_arith at hfs; omega
          have := ih.1 t t' h1 hb
          have := ih.2 rest rest' h2 hrest
          simp_all

theorem tyBeq_sound {t u : VTy} (h : tyBeq t u = true) : t = u :=
  (tyBeq_sound_bounded (sizeOf t)).1 t u (Nat.le_refl _) h

theorem tyBeq_of_ne {t u : VTy} (h : t ≠ u) : tyBeq t u = false := by
  cases hb : tyBeq t u with
  | false => rfl
  | true => exact absurd (tyBeq_sound hb) h

/-! ### The structural diff oracle (`remote/mock.go`) -/

/-- One path-addressed difference (`type Chunk struct` in `remote/mock.go`). -/
structure Chunk where
  Deleted : List Value
  Added : List Value
  Path : String

/-- Model of `var ErrNotDiffable = errors.New("values are not diffable")`. -/
def ErrNotDiffable : String := "values are not diffable"

/-- The outcome of a diff: Go's `([]Chunk, error)` return, plus a distinct
outcome for a runtime panic (reflection on the zero `reflect.Value`). -/
inductive DiffRes where
  | ok (chunks : List Chunk)
  | err (msg : String)
  | panicked (msg : String)

/-- Model of `func Changed(A, B interface{}, path string) Chunk`. -/
def Changed (A B : Value) (path : String) : Chunk :=
  ⟨[A], [B], path⟩

/-- Model of `func Added(B interface{}, path string) Chunk`. -/
def Added (B : Value) (path : String) : Chunk :=
  ⟨[], [B], path⟩

/-- Model of `func Removed(A interface{}, path string) Chunk`. -/
def Removed (A : Value) (path : String) : Chunk :=
  ⟨[A], [], path⟩

/-- Chunk ordering used by `sort.Sort(sorted(diffs))`: `Less(i, j)` is
`strings.Compare(d[i].Path, d[j].Path) == -1`, so the sorted output is
non-decreasing in this relation. -/
def chunkLe (c d : Chunk) : Prop :=
  goStrLt d.Path c.Path = false

instance : DecidableRel chunkLe :=
  fun c d => inferInstanceAs (Decidable (goStrLt d.Path c.Path = false))

/-- Strict path order on chunks, `Less` of the `sorted` helper. -/
def chunkLt (c d : Chunk) : Prop :=
  goStrLt c.Path d.Path = true

/-- Model of `sort.Sort(sorted(diffs))`: some sorting algorithm w.r.t. the path
comparison.  For short slices Go's `sort.Sort` performs insertion sort, which
is what we use as the model. -/
def sortChunks (l : List Chunk) : List Chunk :=
  List.insertionSort chunkLe l

/-- Model of `b.MapIndex(keyA)`: look a key up in a map, modelled on the entry list.
Go maps have distinct keys, so on well-formed values the entry order is
irrelevant to the result. -/
def lookupVal : List (String × Value) → String → Option Value
  | [], _ => none
  | (k, v) :: rest, key => if k == key then some v else lookupVal rest key

theorem sizeOf_lookupVal :
    ∀ (l : List (String × Value)) (k : String) (v : Value),
      lookupVal l k = some v → sizeOf v < sizeOf l := by
  intro l
  induction l with
  | nil => intro k v h; simp [lookupVal] at h
  | cons p rest ih =>
    intro k v h
    obtain ⟨pk, pv⟩ := p
    simp only [lookupVal] at h
    by_cases hk : (pk == k) = true
    · rw [if_pos hk] at h
      have hv : pv = v := by injection h
      subst hv
      simp only [List.cons.sizeOf_spec, Prod.mk.sizeOf_spec]
      omega
    · rw [if_neg hk] at h
      have := ih k v h
      simp only [List.cons.sizeOf_spec, Prod.mk.sizeOf_spec]
      omega

/-- Behavior of `diffValue` when (at least) one side is the zero
`reflect.Value` produced by `reflect.Indirect` on a nil pointer: dispatching
on the declared element type, maps and interfaces and funcs yield the
corresponding errors, every other shape calls a method of the zero Value and
panics. -/
def diffInvalid : VTy → DiffRes
  | .map _ => .err "both values must be maps"
  | .iface => .err "interface diff not implemented"
  | .func => .err "func diff not implemented (and not implementable)"
  | .ptr elem => diffInvalid elem
  | _ => .panicked "reflect: call on zero Value"

/-- Second loop of `diffMap`: entries whose key appears only in `b` are
reported as pure additions, in iteration order. -/
def diffMapB (a : List (String × Value)) : List (String × Value) → String → List Chunk
  | [], _ => []
  | (keyB, valB) :: rest, path =>
    match lookupVal a keyB with
    | some _ => diffMapB a rest path
    | none => Added valB (path ++ "[" ++ keyB ++ "]") :: diffMapB a rest path

mutual
/-- Model of `func diffValue(a, b reflect.Value, typ reflect.Type, path string)`.
The Go function dispatches on `typ.Kind()`; since both values share the
runtime type `typ`, we dispatch on the (matching) value constructors.  The
final catch-all is unreachable for two values of equal runtime type. -/
def diffValue : Value → Value → String → DiffRes
  | .vslice _ xs, .vslice _ ys, path => diffArrayOrSlice xs ys path
  | .viface, .viface, _ => .err "interface diff not implemented"
  | .vptr _ (some a), .vptr _ (some b), path => diffValue a b path
  | .vptr elem none, .vptr _ _, _ => diffInvalid elem
  | .vptr elem (some _), .vptr _ none, _ => diffInvalid elem
  | .vstruct fa, .vstruct fb, path => diffStruct fa fb path
  | .vmap elemA aEntries, .vmap elemB bEntries, path =>
    diffMap (.vmap elemA aEntries) (.vmap elemB bEntries) elemA path
  | .vfunc, .vfunc, _ => .err "func diff not implemented (and not implementable)"
  | .vint a, .vint b, path =>
    if a ≠ b then .ok [Changed (.vint a) (.vint b) path] else .ok []
  | .vstr a, .vstr b, path =>
    if a ≠ b then .ok [Changed (.vstr a) (.vstr b) path] else .ok []
  | .vbool a, .vbool b, path =>
    if a ≠ b then .ok [Changed (.vbool a) (.vbool b) path] else .ok []
  | _, _, _ => .err ErrNotDiffable
termination_by a b _ => 3 * (sizeOf a + sizeOf b) + 2
decreasing_by all_goals (simp_wf; try omega)

/-- Model of `func diffArrayOrSlice`: walk the common prefix, then report the
overbite or underbite as a single chunk. -/
def diffArrayOrSlice (a b : List Value) (path : String) : DiffRes :=
  diffElems a b path 0
termination_by 3 * (sizeOf a + sizeOf b) + 1
decreasing_by all_goals (simp_wf; try omega)

/-- The index-threaded loop of `diffArrayOrSlice`: positions `i`, `i+1`, …
of both sequences are compared pairwise; once one side is exhausted the
remaining elements of the other form one trailing chunk at the current
index. -/
def diffElems : List Value → List Value → String → Nat → DiffRes
  | [], [], _, _ => .ok []
  | x :: xs, y :: ys, path, i =>
    match diffValue x y (path ++ "[" ++ toString i ++ "]") with
    | .ok d =>
      match diffElems xs ys path (i + 1) with
      | .ok changed => .ok (d ++ changed)
      | e => e
    | e => e
  | x :: xs, [], path, i =>
    .ok [⟨x :: xs, [], path ++ "[" ++ toString i ++ "]"⟩]
  | [], y :: ys, path, i =>
    .ok [⟨[], y :: ys, path ++ "[" ++ toString i ++ "]"⟩]
termination_by a b _ _ => 3 * (sizeOf a + sizeOf b)
decreasing_by all_goals (simp_wf; try omega)

/-- Model of `func diffStruct`: diff each exported field individually, extending the
path with the field name.  The two field lists correspond position-wise,
since both struct values share one runtime type. -/
def diffStruct : List (String × Bool × Value) → List (String × Bool × Value) → String → DiffRes
  | (name, exported, a) :: fa, (_, _, b) :: fb, path =>
    if exported then
      match diffValue a b (path ++ "." ++ name) with
      | .ok fieldDiffs =>
        match diffStruct fa fb path with
        | .ok diffs => .ok (fieldDiffs ++ diffs)
        | e => e
      | e => e
    else
      diffStruct fa fb path
  | _, _, _ => .ok []
termination_by fa fb _ => 3 * (sizeOf fa + sizeOf fb)
decreasing_by all_goals (simp_wf; try omega)

/-- Model of `func diffMap`: requires both values to be maps, diffs each entry, adds
entries found on only one side, and sorts the chunk list by path. -/
def diffMap : Value → Value → VTy → String → DiffRes
  | .vmap _ aEntries, .vmap _ bEntries, _, path =>
    (match diffMapA aEntries bEntries path with
     | .ok diffs => .ok (sortChunks (diffs ++ diffMapB aEntries bEntries path))
     | e => e)
  | _, _, _, _ => .err "both values must be maps"
termination_by a b _ _ => 3 * (sizeOf a + sizeOf b) + 1
decreasing_by all_goals (simp_wf; try omega)

/-- First loop of `diffMap`: for every entry of `a`, recurse when the key is
also in `b`, otherwise report a pure deletion. -/
def diffMapA : List (String × Value) → List (String × Value) → String → DiffRes
  | [], _, _ => .ok []
  | (keyA, valA) :: rest, b, path =>
    match hvb : lookupVal b keyA with
    | some valB =>
      (match diffValue valA valB (path ++ "[" ++ keyA ++ "]") with
       | .ok moreDiffs =>
         (match diffMapA rest b path with
          | .ok diffs => .ok (moreDiffs ++ diffs)
          | e => e)
       | e => e)
    | none =>
      (match diffMapA rest b path with
       | .ok diffs => .ok (Removed valA (path ++ "[" ++ keyA ++ "]") :: diffs)
       | e => e)
termination_by a b _ => 3 * (sizeOf a + sizeOf b)
decreasing_by
  all_goals simp_wf
  all_goals try omega
  all_goals have hlt := sizeOf_lookupVal b keyA valB hvb
  all_goals omega
end

/-- Model of `func Diff(a, b interface{})`: values of different runtime types are not
comparable; otherwise walk the structure starting at the empty path. -/
def Diff (a b : Value) : DiffRes :=
  if tyBeq (tyOf a) (tyOf b) then diffValue a b "" else .err ErrNotDiffable

/-- The chunks one entry of `a` contributes in `diffMapA`: the recursive
diff when the key is shared, a single deletion otherwise.  A proof-side
abbreviation for the body of `diffMap`'s first loop. -/
def entryBlock (b : List (String × Value)) (path : String) (k : String) (v : Value) : DiffRes :=
  match lookupVal b k with
  | some valB => diffValue v valB (path ++ "[" ++ k ++ "]")
  | none => .ok [Removed v (path ++ "[" ++ k ++ "]")]

/-! ### The error taxonomy and the HTTP error writer

`ErrorResponse`, `WriteError` and `JSONResponse` live in the repository's
`http` package (`src/unnamed/part_000`); the `flux` error types they
classify, and the content negotiation helper, live elsewhere in the
repository and are modelled from the spec. -/

/-- Modelled from the spec: the error envelope carried by `*flux.BaseError`
(not under `src/`) — a machine message and a human help string. -/
structure BaseError where
  err : String
  help : String
deriving DecidableEq

/-- Modelled from the spec: the `flux` error values an HTTP handler can pass
to the error writer — the classified kinds `Missing`, `UserConfigProblem`,
`ServerException` (each embedding a `*flux.BaseError`), the transport-level
`Unauthorized` and `Deprecated` errors, a bare `*flux.BaseError`, a plain
untyped error, and a `pkg/errors` wrapper (unwound by `errors.Cause`). -/
inductive GoError where
  | missing (e : BaseError)
  | userConfigProblem (e : BaseError)
  | serverException (e : BaseError)
  | unauthorized (e : BaseError)
  | deprecated (e : BaseError)
  | base (e : BaseError)
  | generic (msg : String)
  | wrapped (msg : String) (inner : GoError)
deriving DecidableEq

/-- Model of `errors.Cause`: unwind `pkg/errors` wrappers to the innermost error. -/
def errorsCause : GoError → GoError
  | .wrapped _ inner => errorsCause inner
  | e => e

/-- The `Error()` string of an error value.  Modelled from the spec: for a
classified error this is the envelope's machine message. -/
def errText : GoError → String
  | .missing e => e.err
  | .userConfigProblem e => e.err
  | .serverException e => e.err
  | .unauthorized e => e.err
  | .deprecated e => e.err
  | .base e => e.err
  | .generic msg => msg
  | .wrapped msg inner => msg ++ ": " ++ errText inner

/-- Modelled from the spec: `flux.CoverAllError` (not under `src/`) coerces
an unclassifiable error into a `*flux.BaseError` envelope with a generic
help text, so that nothing crosses the boundary as an opaque value. -/
def CoverAllError (e : GoError) : BaseError :=
  ⟨errText e, "An internal server error occurred. Please try again."⟩

/-- A response body on the wire: the JSON encoding of a `*flux.BaseError`
envelope, the JSON encoding of a value with no exported fields, or plain
text. -/
inductive Body where
  | jsonBase (e : BaseError)
  | jsonOpaque
  | text (s : String)
deriving DecidableEq

/-- The JSON body `json.Marshal` produces for an error value: a classified
error or bare `*flux.BaseError` yields the envelope (the classified kinds
embed the `*flux.BaseError`, so marshal identically), anything else yields a
JSON object with no exported fields. -/
def jsonBodyOf : GoError → Body
  | .missing be => .jsonBase be
  | .userConfigProblem be => .jsonBase be
  | .serverException be => .jsonBase be
  | .unauthorized be => .jsonBase be
  | .deprecated be => .jsonBase be
  | .base be => .jsonBase be
  | .generic _ => .jsonOpaque
  | .wrapped _ _ => .jsonOpaque

/-- Model of `json.Marshal` applied to an error value.  Marshalling cannot fail on
these values (Go marshals an error struct field-wise).  The `Except` shape
mirrors Go's `(body, err)` return, whose error branch `WriteError` still
handles. -/
def jsonMarshalErr (e : GoError) : Except String Body :=
  .ok (jsonBodyOf e)

/-- What the request's Accept header negotiates to: no header at all, a
header accepting `application/json`, one accepting `text/plain`, or one
accepting neither offer. -/
inductive Accept where
  | absent
  | json
  | plain
  | other
deriving DecidableEq

/-- Modelled from the spec: `negotiateContentType(r, offered)` (not under
`src/`) returns the offered content type the request accepts, or the empty
string when it accepts none. -/
def negotiateContentType : Accept → String
  | .json => "application/json"
  | .plain => "text/plain"
  | _ => ""

/-- One observable action on the `http.ResponseWriter`, in program order:
setting a header, writing the status code, writing the body. -/
inductive WEvent where
  | setHeader (key value : String)
  | writeHeader (code : Nat)
  | write (b : Body)
deriving DecidableEq

/-- The shared tail of `WriteError` (its final three lines): plain text,
the given status code, the error text. -/
def writeErrorDefault (code : Nat) (err : GoError) : List WEvent :=
  [.setHeader "Content-Type" "text/plain; charset=utf-8",
   .writeHeader code,
   .write (.text (errText err))]

/-- Model of `func WriteError(w, r, code, err)`: content-negotiated error writing. -/
def WriteError (r : Accept) (code : Nat) (err : GoError) : List WEvent :=
  if r ≠ .absent then
    match negotiateContentType r with
    | "application/json" =>
      match jsonMarshalErr err with
      | .error encodeErr =>
        [.setHeader "Content-Type" "text/plain; charset=utf-8",
         .writeHeader 500,
         .write (.text ("Error encoding error response: " ++ encodeErr
                        ++ "\n\nOriginal error: " ++ errText err))]
      | .ok body =>
        [.setHeader "Content-Type" "application/json; charset=utf-8",
         .writeHeader code,
         .write body]
    | "text/plain" =>
      [.setHeader "Content-Type" "text/plain; charset=utf-8",
       .writeHeader code,
       .write (.text (match err with
                      | .base e => e.help
                      | _ => errText err))]
    | _ => writeErrorDefault code err
  else writeErrorDefault code err

/-- The status code and envelope computed by `func ErrorResponse`'s type
switch on `errors.Cause(apiError)`. -/
def errorResponsePair (apiError : GoError) : Nat × BaseError :=
  match errorsCause apiError with
  | .missing e => (404, e)
  | .userConfigProblem e => (422, e)
  | .serverException e => (500, e)
  | _ => (500, CoverAllError apiError)

/-- Model of `func ErrorResponse(w, r, apiError)`: classify, then write through
`WriteError`.  The written error is always a bare `*flux.BaseError`. -/
def ErrorResponse (r : Accept) (apiError : GoError) : List WEvent :=
  WriteError r (errorResponsePair apiError).1 (.base (errorResponsePair apiError).2)

/-- The result value handed to `JSONResponse`, by whether `json.Marshal`
succeeds on it (Go values such as channels or funcs fail to marshal). -/
inductive RVal where
  | good (b : Body)
  | bad (msg : String)

/-- Model of `json.Marshal` applied to a result value. -/
def jsonMarshalResult : RVal → Except String Body
  | .good b => .ok b
  | .bad msg => .error msg

/-- Model of `func JSONResponse(w, r, result)`: marshal, falling back to
`ErrorResponse` on a marshal error. -/
def JSONResponse (r : Accept) (result : RVal) : List WEvent :=
  match jsonMarshalResult result with
  | .error m => ErrorResponse r (.generic m)
  | .ok body =>
    [.setHeader "Content-Type" "application/json; charset=utf-8",
     .writeHeader 200,
     .write body]

/-! ### The HTTP client's response decoding (`http/client/client.go`) -/

/-- Modelled from the spec: `transport.ErrorUnauthorized` (not under
`src/`), the transport-level Unauthorized error the client returns for a
401 response. -/
def ErrorUnauthorized : GoError :=
  .unauthorized ⟨"401 Unauthorized", "The request failed authentication"⟩

/-- Model of `strings.HasPrefix` on the character sequences. -/
def startsChars : List Char → List Char → Bool
  | _, [] => true
  | [], _ :: _ => false
  | a :: as, b :: bs => a == b && startsChars as bs

def strStartsWith (s p : String) : Bool :=
  startsChars s.data p.data

/-- Model of `resp.Status` for a status code; modelled as the decimal code text. -/
def statusText (code : Nat) : String :=
  toString code

/-- The raw bytes of a body read by `ioutil.ReadAll`, as text.  Only the
plain-text case is exercised by the client's non-JSON branch. -/
def bodyText : Body → String
  | .text s => s
  | .jsonBase e => e.err
  | .jsonOpaque => ""

/-- Model of `func (c *Client) executeRequest(req)`: 2xx success statuses pass
through; 401 maps to the Unauthorized sentinel; any other status is decoded
as a `flux.BaseError` envelope when the response declares JSON, and as a
plain error otherwise.  The `Nat` success value stands for the response
(whose status code the caller can read). -/
def executeRequest (status : Nat) (contentType : String) (body : Body) : Except GoError Nat :=
  if status = 200 ∨ status = 201 ∨ status = 204 then
    .ok status
  else if status = 401 then
    .error ErrorUnauthorized
  else if strStartsWith contentType "application/json" then
    match body with
    | .jsonBase e => .error (.base e)
    | .jsonOpaque => .error (.base ⟨"", ""⟩)
    | .text _ => .error (.generic "decoding error in response body")
  else
    .error (.generic (statusText status ++ " " ++ bodyText body))

/-- The five classified error kinds of the taxonomy. -/
inductive ErrKind where
  | notFound
  | userConfigProblem
  | serverException
  | unauthorized
  | deprecated
deriving DecidableEq

/-- Modelled from the spec's words: the claimed one-to-one mapping between
the five kinds and the HTTP status codes 404/422/500/401/410, used to
compare the code's encode and decode directions against the claim. -/
def statusOfKind : ErrKind → Nat
  | .notFound => 404
  | .userConfigProblem => 422
  | .serverException => 500
  | .unauthorized => 401
  | .deprecated => 410

/-- The kind carried by an error value, if any: a bare envelope or plain
error carries none. -/
def kindOfError : GoError → Option ErrKind
  | .missing _ => some .notFound
  | .userConfigProblem _ => some .userConfigProblem
  | .serverException _ => some .serverException
  | .unauthorized _ => some .unauthorized
  | .deprecated _ => some .deprecated
  | .base _ => none
  | .generic _ => none
  | .wrapped _ inner => kindOfError inner

/-- The response the HTTP transport carries from server to client: the
content type set, the status code written, and the body written, read off
the writer's event trace. -/
def responseOf (events : List WEvent) : String × Nat × Body :=
  match events with
  | [.setHeader _ ct, .writeHeader c, .write b] => (ct, c, b)
  | _ => ("", 0, .text "")

/-! ### `MakeURL` (`http/transport.go`) -/

/-- A parsed URL, as far as `MakeURL` manipulates one: its path and its
encoded query string. -/
structure GoURL where
  path : String
  rawQuery : String
deriving DecidableEq

/-- One step of Go's `path.Clean` segment processing: skip empty and `.`
segments, let `..` pop the previous segment (or survive at the head of a
relative path), push everything else.  The accumulator holds the cleaned
segments in reverse. -/
def cleanStep (abs : Bool) (acc : List String) (s : String) : List String :=
  if s = "" ∨ s = "." then acc
  else if s = ".." then
    match acc with
    | [] => if abs then [] else [".."]
    | t :: rest => if t = ".." then s :: acc else rest
  else s :: acc

/-- Model of `path.Clean`, modelling the segment semantics of Go's lexical path
cleaning. -/
def cleanPath (p : String) : String :=
  let abs := strStartsWith p "/"
  let segs := ((p.splitOn "/").foldl (cleanStep abs) []).reverse
  let body := String.intercalate "/" segs
  if abs then "/" ++ body
  else if body = "" then "." else body

/-- Model of `path.Join(a, b)`: join the non-empty elements with a slash and clean
the result; all-empty input yields the empty string. -/
def pathJoin (a b : String) : String :=
  if a = "" ∧ b = "" then ""
  else if a = "" then cleanPath b
  else if b = "" then cleanPath a
  else cleanPath (a ++ "/" ++ b)

/-- Consecutive elements of the variadic `urlParams` paired up, as the
`for i += 2` loop reads them into `url.Values`. -/
def pairsOf : List String → List (String × String)
  | k :: v :: rest => (k, v) :: pairsOf rest
  | _ => []

/-- Ordering of query keys used by `url.Values.Encode`, which emits keys in
sorted order. -/
def pairLe (p q : String × String) : Prop :=
  goStrLt q.1 p.1 = false

instance : DecidableRel pairLe :=
  fun p q => inferInstanceAs (Decidable (goStrLt q.1 p.1 = false))

/-- Model of `url.Values.Encode()`: the key/value pairs rendered `k=v` joined by
`&`, keys in sorted order.  Percent-escaping is not modelled; the claims
quantify over already-safe strings. -/
def encodeValues (ps : List (String × String)) : String :=
  String.intercalate "&" ((List.insertionSort pairLe ps).map fun p => p.1 ++ "=" ++ p.2)

/-- The outcome of `MakeURL`: a panic, an error return, or a URL. -/
inductive MakeURLResult where
  | panicked (msg : String)
  | failed (msg : String)
  | ok (u : GoURL)
deriving DecidableEq

/-- Model of `func MakeURL(endpoint, router, routeName, urlParams...)`.  The two
parse steps (`url.Parse(endpoint)` and `router.Get(routeName).URL()`) are
passed in as their outcomes. -/
def MakeURL (endpoint : Except String GoURL) (routeURL : Except String GoURL)
    (urlParams : List String) : MakeURLResult :=
  if urlParams.length % 2 ≠ 0 then
    .panicked "urlParams must be even!"
  else
    match endpoint with
    | .error e => .failed ("parsing endpoint: " ++ e)
    | .ok endpointURL =>
      match routeURL with
      | .error e => .failed ("retrieving route path: " ++ e)
      | .ok route =>
        .ok ⟨pathJoin endpointURL.path route.path, encodeValues (pairsOf urlParams)⟩

/-! ### Daemon registration (`doRegister` in the service's HTTP handler) -/

/-- The observable actions of `doRegister`, in program order. -/
inductive RegEvent where
  | wroteHeader (code : Nat)
  | wroteBody (s : String)
  | newRPCClient
  | registerDaemon
  | closeClient
deriving DecidableEq

/-- Model of `func (s HTTPService) doRegister(w, r, newRPCFn)`.  The websocket
upgrade (`websocket.Upgrade`, not under `src/`; modelled from the spec as
an operation that either yields a stream or fails) is passed in as its
outcome.  On failure: 400 plus the error text, nothing else.  On success:
wrap the stream in an RPC client, block in `RegisterDaemon`, then close. -/
def doRegister (upgrade : Except String Unit) : List RegEvent :=
  match upgrade with
  | .error e => [.wroteHeader 400, .wroteBody e]
  | .ok _ => [.newRPCClient, .registerDaemon, .closeClient]

/-! ### Well-formed, diffable values -/

/-- Distinctness of a map value's keys.  Entry lists with duplicate keys do
not arise from Go maps. -/
def keysNodup : List (String × Value) → Bool
  | [] => true
  | (k, _) :: rest => !(rest.any fun p => p.1 == k) && keysNodup rest

mutual
/-- A value every part of which the diff oracle supports: no interface or
function values (their diffs are unimplemented), no nil pointers (diffing
one panics), and map entry lists with distinct keys (as Go maps guarantee).
-/
def supportedValue : Value → Bool
  | .vint _ => true
  | .vstr _ => true
  | .vbool _ => true
  | .vslice _ xs => supportedElems xs
  | .vstruct fields => supportedFields fields
  | .vmap _ entries => keysNodup entries && supportedEntries entries
  | .vptr _ (some v) => supportedValue v
  | .vptr _ none => false
  | .viface => false
  | .vfunc => false

def supportedElems : List Value → Bool
  | [] => true
  | x :: xs => supportedValue x && supportedElems xs

def supportedFields : List (String × Bool × Value) → Bool
  | [] => true
  | (_, _, v) :: rest => supportedValue v && supportedFields rest

def supportedEntries : List (String × Value) → Bool
  | [] => true
  | (_, v) :: rest => supportedValue v && supportedEntries rest
end

/-! ### Claim theorems -/

/-- Claim C3: for every pair of values whose runtime types differ,
`Diff(v, w)` fails with the distinct "not comparable" error
(`ErrNotDiffable`) and never returns a chunk list. -/
theorem c3_shape_mismatch : ∀ v w : Value, tyOf v ≠ tyOf w →
    Diff v w = .err ErrNotDiffable ∧ ∀ cs, Diff v w ≠ .ok cs := by
  intro v w h
  have hb : tyBeq (tyOf v) (tyOf w) = false := tyBeq_of_ne h
  constructor
  · simp [Diff, hb]
  · intro cs hcs
    rw [Diff, hb] at hcs
    simp at hcs

/-- Witness for C3 at `v = 0 : int`, `w = "" : string`. -/
theorem c3_witness :
    Diff (.vint 0) (.vstr "") = .err ErrNotDiffable ∧
      ∀ cs, Diff (.vint 0) (.vstr "") ≠ .ok cs :=
  c3_shape_mismatch (.vint 0) (.vstr "") (by simp [tyOf])

/-- Claim C6: every error whose cause is not one of the recognized
classified types (`Missing`, `UserConfigProblem`, `ServerException`) is
coerced through `CoverAllError` to status 500 before being written; what
reaches the wire is always a `*flux.BaseError` envelope, never an opaque
value. -/
theorem c6_coverall : ∀ (r : Accept) (e : GoError),
    (∀ be, errorsCause e ≠ .missing be) →
    (∀ be, errorsCause e ≠ .userConfigProblem be) →
    (∀ be, errorsCause e ≠ .serverException be) →
    errorResponsePair e = (500, CoverAllError e) ∧
      ErrorResponse r e = WriteError r 500 (.base (CoverAllError e)) := by
  intro r e h1 h2 h3
  have hpair : errorResponsePair e = (500, CoverAllError e) := by
    unfold errorResponsePair
    cases hc : errorsCause e with
    | missing be => exact absurd hc (h1 be)
    | userConfigProblem be => exact absurd hc (h2 be)
    | serverException be => exact absurd hc (h3 be)
    | unauthorized be => rfl
    | deprecated be => rfl
    | base be => rfl
    | generic m => rfl
    | wrapped m inner => rfl
  refine ⟨hpair, ?_⟩
  unfold ErrorResponse
  rw [hpair]

/-- Witness for C6 at a plain untyped error. -/
theorem c6_witness :
    errorResponsePair (.generic "boom") = (500, CoverAllError (.generic "boom")) ∧
      ErrorResponse .json (.generic "boom")
        = WriteError .json 500 (.base (CoverAllError (.generic "boom"))) :=
  c6_coverall .json (.generic "boom")
    (fun be => by simp [errorsCause])
    (fun be => by simp [errorsCause])
    (fun be => by simp [errorsCause])

/-- Claim C7: `WriteError` honors content negotiation — a JSON-negotiating
request gets the marshalled envelope at the given status code, a
plain-text-negotiating request gets only the help text (for `*flux.BaseError`
values) or the raw error text at the same code, other requests get the raw
error text; in every branch a charset-qualified Content-Type is set and the
status code is written before the body. -/
theorem c7_write_error_negotiation : ∀ (code : Nat) (err : GoError),
    (WriteError .json code err =
      [.setHeader "Content-Type" "application/json; charset=utf-8",
       .writeHeader code, .write (jsonBodyOf err)])
  ∧ (WriteError .plain code err =
      [.setHeader "Content-Type" "text/plain; charset=utf-8",
       .writeHeader code,
       .write (.text (match err with | .base e => e.help | _ => errText err))])
  ∧ (WriteError .other code err = writeErrorDefault code err)
  ∧ (WriteError .absent code err = writeErrorDefault code err)
  ∧ (∀ acc : Accept, ∃ baseCT body,
       WriteError acc code err =
         [.setHeader "Content-Type" (baseCT ++ "; charset=utf-8"),
          .writeHeader code, .write body]) := by
  intro code err
  refine ⟨?_, ?_, ?_, ?_, ?_⟩
  · cases err <;> rfl
  · cases err <;> rfl
  · rfl
  · rfl
  · intro acc
    cases acc with
    | absent => exact ⟨"text/plain", .text (errText err), rfl⟩
    | json => exact ⟨"application/json", jsonBodyOf err, by cases err <;> rfl⟩
    | plain =>
      refine ⟨"text/plain", .text (match err with | .base e => e.help | _ => errText err), ?_⟩
      cases err <;> rfl
    | other => exact ⟨"text/plain", .text (errText err), rfl⟩

/-- Claim C8: `JSONResponse` marshals the result and writes HTTP 200 with
the JSON body; on marshal failure it falls back through `ErrorResponse`
instead of leaving the response unwritten. -/
theorem c8_json_response : ∀ (r : Accept),
    (∀ b, JSONResponse r (.good b) =
       [.setHeader "Content-Type" "application/json; charset=utf-8",
        .writeHeader 200, .write b])
  ∧ (∀ m, JSONResponse r (.bad m) = ErrorResponse r (.generic m)
       ∧ ErrorResponse r (.generic m)
           = WriteError r 500 (.base (CoverAllError (.generic m)))
       ∧ JSONResponse r (.bad m) ≠ []) := by
  intro r
  constructor
  · intro b; rfl
  · intro m
    refine ⟨rfl, rfl, ?_⟩
    cases r <;> simp [JSONResponse, jsonMarshalResult, ErrorResponse, errorResponsePair,
      errorsCause, WriteError, negotiateContentType, jsonMarshalErr, writeErrorDefault]

/-- Claim C9: when the websocket upgrade fails, `doRegister` aborts with
HTTP 400 plus the error text and creates no RPC client and no registered
session; the RPC wrapper and `RegisterDaemon` are reached only when the
upgrade succeeds. -/
theorem c9_do_register :
    (∀ e, doRegister (.error e) = [.wroteHeader 400, .wroteBody e]
       ∧ RegEvent.newRPCClient ∉ doRegister (.error e)
       ∧ RegEvent.registerDaemon ∉ doRegister (.error e))
  ∧ (doRegister (.ok ()) = [.newRPCClient, .registerDaemon, .closeClient])
  ∧ (∀ res : Except String Unit,
       RegEvent.registerDaemon ∈ doRegister res → res = .ok ()) := by
  refine ⟨?_, rfl, ?_⟩
  · intro e
    refine ⟨rfl, ?_, ?_⟩ <;> simp [doRegister]
  · intro res h
    cases res with
    | error e => simp [doRegister] at h
    | ok u => rfl

/-- Witness for C9: a successful upgrade reaches `RegisterDaemon`. -/
theorem c9_witness : Except.ok () = (Except.ok () : Except String Unit) :=
  c9_do_register.2.2 (.ok ()) (by simp [doRegister])

/-- Claim C10: `MakeURL` panics exactly when the number of `urlParams` is
odd; with an even number of parameters the panic branch is unreachable, and
consecutive entries are paired as query key/value pairs in the returned URL,
whose path is the endpoint path joined with the route's path. -/
theorem c10_make_url :
    (∀ ep rt ps, ps.length % 2 = 1 → MakeURL ep rt ps = .panicked "urlParams must be even!")
  ∧ (∀ ep rt ps, ps.length % 2 = 0 → ∀ m, MakeURL ep rt ps ≠ .panicked m)
  ∧ (∀ eu ru ps, ps.length % 2 = 0 →
       MakeURL (.ok eu) (.ok ru) ps
         = .ok ⟨pathJoin eu.path ru.path, encodeValues (pairsOf ps)⟩) := by
  refine ⟨?_, ?_, ?_⟩
  · intro ep rt ps h
    have : ps.length % 2 ≠ 0 := by omega
    simp [MakeURL, this]
  · intro ep rt ps h m
    have h2 : ¬ ps.length % 2 ≠ 0 := by omega
    simp only [MakeURL, h2, if_false, ite_false, if_neg]
    cases ep with
    | error e => simp
    | ok eu => cases rt with
      | error e => simp
      | ok ru => simp
  · intro eu ru ps h
    have h2 : ¬ ps.length % 2 ≠ 0 := by omega
    simp [MakeURL, h2]

/-- Witness for C10 at one odd and one even parameter list. -/
theorem c10_witness :
    MakeURL (.ok ⟨"/api", ""⟩) (.ok ⟨"/v3/services", ""⟩) ["namespace"]
        = .panicked "urlParams must be even!"
    ∧ MakeURL (.ok ⟨"/api", ""⟩) (.ok ⟨"/v3/services", ""⟩) ["namespace", "default"]
        = .ok ⟨pathJoin "/api" "/v3/services", encodeValues (pairsOf ["namespace", "default"])⟩ :=
  ⟨c10_make_url.1 _ _ _ (by decide),
   c10_make_url.2.2 ⟨"/api", ""⟩ ⟨"/v3/services", ""⟩ ["namespace", "default"] (by decide)⟩

/-- Claim C1 (counterexample): the error-kind round trip fails on the code.
Encoding a `Missing` error does produce status 404 with the envelope as a
JSON body, but the client decodes any non-401 failure status as a bare,
unclassified `*flux.BaseError` — the NotFound kind is not recovered.  In the
encode direction the mapping is not one-to-one onto the five kinds either:
`ErrorResponse` sends Deprecated- and Unauthorized-classified errors to 500,
not to 410/401. -/
theorem c1_claim_counterexample :
    errorResponsePair (.missing ⟨"m", "h"⟩) = (404, ⟨"m", "h"⟩)
  ∧ executeRequest 404 "application/json; charset=utf-8" (.jsonBase ⟨"m", "h"⟩)
      = .error (.base ⟨"m", "h"⟩)
  ∧ kindOfError (.base ⟨"m", "h"⟩) ≠ some ErrKind.notFound
  ∧ statusOfKind .deprecated = 410
  ∧ (errorResponsePair (.deprecated ⟨"d", "h"⟩)).1 = 500
  ∧ statusOfKind .unauthorized = 401
  ∧ (errorResponsePair (.unauthorized ⟨"u", "h"⟩)).1 = 500 := by
  refine ⟨rfl, rfl, by decide, rfl, rfl, rfl, rfl⟩

/-- Claim C1 (amended): `ErrorResponse` encodes `Missing` / 
`UserConfigProblem` / `ServerException` at 404 / 422 / 500 with the
envelope as the JSON body, and coerces every other error — including
Deprecated- and Unauthorized-classified ones — to 500; the client decodes
401 to the Unauthorized sentinel and any other failure status with a JSON
content type to an unclassified `*flux.BaseError` that carries the
envelope's message and help unchanged, at the same status code.  Only the
Unauthorized kind survives the round trip; for the other kinds the status
code and envelope contents round-trip but the kind itself is lost. -/
theorem c1_amended_encode_decode : ∀ e : BaseError,
    errorResponsePair (.missing e) = (404, e)
  ∧ errorResponsePair (.userConfigProblem e) = (422, e)
  ∧ errorResponsePair (.serverException e) = (500, e)
  ∧ (errorResponsePair (.unauthorized e)).1 = 500
  ∧ (errorResponsePair (.deprecated e)).1 = 500
  ∧ (∀ ct b, executeRequest 401 ct b = .error ErrorUnauthorized)
  ∧ kindOfError ErrorUnauthorized = some ErrKind.unauthorized
  ∧ (ErrorResponse .json (.missing e)
       = [.setHeader "Content-Type" "application/json; charset=utf-8",
          .writeHeader 404, .write (.jsonBase e)]
     ∧ executeRequest 404 "application/json; charset=utf-8" (.jsonBase e)
         = .error (.base e))
  ∧ (ErrorResponse .json (.userConfigProblem e)
       = [.setHeader "Content-Type" "application/json; charset=utf-8",
          .writeHeader 422, .write (.jsonBase e)]
     ∧ executeRequest 422 "application/json; charset=utf-8" (.jsonBase e)
         = .error (.base e))
  ∧ (ErrorResponse .json (.serverException e)
       = [.setHeader "Content-Type" "application/json; charset=utf-8",
          .writeHeader 500, .write (.jsonBase e)]
     ∧ executeRequest 500 "application/json; charset=utf-8" (.jsonBase e)
         = .error (.base e))
  ∧ kindOfError (.base e) = none := by
  intro e
  refine ⟨rfl, rfl, rfl, rfl, rfl, fun ct b => rfl, rfl,
    ⟨rfl, rfl⟩, ⟨rfl, rfl⟩, ⟨rfl, rfl⟩, rfl⟩

theorem value_sizeOf_pos : ∀ v : Value, 1 ≤ sizeOf v := by
  intro v; cases v <;> simp_arith

theorem supportedElems_mem {xs : List Value} (h : supportedElems xs = true) :
    ∀ x ∈ xs, supportedValue x = true := by
  induction xs with
  | nil => intro x hx; simp at hx
  | cons y ys ih =>
    intro x hx
    simp [supportedElems] at h
    rcases List.mem_cons.mp hx with rfl | hx2
    · exact h.1
    · exact ih h.2 x hx2

theorem supportedFields_mem {fields : List (String × Bool × Value)}
    (h : supportedFields fields = true) :
    ∀ f ∈ fields, supportedValue f.2.2 = true := by
  induction fields with
  | nil => intro f hf; simp at hf
  | cons g rest ih =>
    intro f hf
    obtain ⟨gn, gx, gv⟩ := g
    simp [supportedFields] at h
    rcases List.mem_cons.mp hf with rfl | hf2
    · exact h.1
    · exact ih h.2 f hf2

theorem supportedEntries_mem {entries : List (String × Value)}
    (h : supportedEntries entries = true) :
    ∀ p ∈ entries, supportedValue p.2 = true := by
  induction entries with
  | nil => intro p hp; simp at hp
  | cons q rest ih =>
    intro p hp
    obtain ⟨qk, qv⟩ := q
    simp [supportedEntries] at h
    rcases List.mem_cons.mp hp with rfl | hp2
    · exact h.1
    · exact ih h.2 p hp2

theorem keysNodup_lookup {entries : List (String × Value)}
    (hnd : keysNodup entries = true) :
    ∀ k v, (k, v) ∈ entries → lookupVal entries k = some v := by
  induction entries with
  | nil => intro k v h; simp at h
  | cons q rest ih =>
    intro k v h
    obtain ⟨qk, qv⟩ := q
    simp only [keysNodup, Bool.and_eq_true, Bool.not_eq_true'] at hnd
    by_cases hk : (qk == k) = true
    · have hqk : qk = k := by simpa using hk
      subst hqk
      rcases List.mem_cons.mp h with heq | hmem
      · injection heq with h1 h2
        subst h2
        simp [lookupVal]
      · exfalso
        have hany : (rest.any fun p => p.1 == qk) = true :=
          List.any_eq_true.mpr ⟨(qk, v), hmem, by simp⟩
        rw [hany] at hnd
        exact Bool.noConfusion hnd.1
    · have hkf : (qk == k) = false := by
        cases hb : (qk == k) with
        | false => rfl
        | true => exact absurd hb hk
      rcases List.mem_cons.mp h with heq | hmem
      · exfalso
        injection heq with h1 h2
        subst h1
        simp at hkf
      · simp only [lookupVal, hkf, Bool.false_eq_true, if_false]
        exact ih hnd.2 k v hmem

theorem lookup_isSome_of_mem {entries : List (String × Value)} :
    ∀ k v, (k, v) ∈ entries → ∃ w, lookupVal entries k = some w := by
  induction entries with
  | nil => intro k v h; simp at h
  | cons q rest ih =>
    intro k v h
    obtain ⟨qk, qv⟩ := q
    by_cases hk : (qk == k) = true
    · exact ⟨qv, by simp [lookupVal, hk]⟩
    · have hne : (qk == k) = false := by simpa using hk
      rcases List.mem_cons.mp h with heq | hmem
      · exfalso
        have : qk = k := congrArg Prod.fst heq.symm
        subst this
        simp at hne
      · have := ih k v hmem
        simpa [lookupVal, hne] using this

theorem diffElems_refl : ∀ (xs : List Value),
    (∀ x ∈ xs, ∀ p, diffValue x x p = .ok []) →
    ∀ path i, diffElems xs xs path i = .ok [] := by
  intro xs
  induction xs with
  | nil => intro _ path i; simp [diffElems]
  | cons x rest ih =>
    intro h path i
    have hx := h x (by simp)
    have hrest : ∀ y ∈ rest, ∀ p, diffValue y y p = .ok [] :=
      fun y hy => h y (List.mem_cons_of_mem _ hy)
    simp [diffElems, hx, ih hrest]

theorem diffStruct_refl : ∀ (fields : List (String × Bool × Value)),
    (∀ f ∈ fields, ∀ p, diffValue f.2.2 f.2.2 p = .ok []) →
    ∀ path, diffStruct fields fields path = .ok [] := by
  intro fields
  induction fields with
  | nil => intro _ path; simp [diffStruct]
  | cons f rest ih =>
    intro h path
    obtain ⟨name, ex, v⟩ := f
    have hv := h (name, ex, v) (by simp)
    have hrest : ∀ g ∈ rest, ∀ p, diffValue g.2.2 g.2.2 p = .ok [] :=
      fun g hg => h g (List.mem_cons_of_mem _ hg)
    cases ex <;> simp [diffStruct, hv, ih hrest]

theorem diffMapA_cons_some {b : List (String × Value)} {k : String} {w : Value}
    (hlk : lookupVal b k = some w) (v : Value) (rest : List (String × Value))
    (path : String) :
    diffMapA ((k, v) :: rest) b path =
      (match diffValue v w (path ++ "[" ++ k ++ "]") with
       | .ok moreDiffs =>
         (match diffMapA rest b path with
          | .ok diffs => .ok (moreDiffs ++ diffs)
          | e => e)
       | e => e) := by
  simp only [diffMapA]
  split
  · next valB heq =>
    rw [hlk] at heq
    injection heq with h1
    subst h1
    rfl
  · next heq =>
    rw [hlk] at heq
    cases heq

theorem diffMapA_cons_none {b : List (String × Value)} {k : String}
    (hlk : lookupVal b k = none) (v : Value) (rest : List (String × Value))
    (path : String) :
    diffMapA ((k, v) :: rest) b path =
      (match diffMapA rest b path with
       | .ok diffs => .ok (Removed v (path ++ "[" ++ k ++ "]") :: diffs)
       | e => e) := by
  simp only [diffMapA]
  split
  · next valB heq =>
    rw [hlk] at heq
    cases heq
  · next heq => rfl

theorem diffMapA_refl : ∀ (l entries : List (String × Value)) (path : String),
    (∀ p ∈ l, lookupVal entries p.1 = some p.2) →
    (∀ p ∈ l, ∀ pth, diffValue p.2 p.2 pth = .ok []) →
    diffMapA l entries path = .ok [] := by
  intro l
  induction l with
  | nil => intro entries path _ _; simp [diffMapA]
  | cons q rest ih =>
    intro entries path hlook hdiff
    obtain ⟨k, v⟩ := q
    have hl : lookupVal entries k = some v := hlook (k, v) (by simp)
    have hd := hdiff (k, v) (by simp)
    have hlr : ∀ p ∈ rest, lookupVal entries p.1 = some p.2 :=
      fun p hp => hlook p (List.mem_cons_of_mem _ hp)
    have hdr : ∀ p ∈ rest, ∀ pth, diffValue p.2 p.2 pth = .ok [] :=
      fun p hp => hdiff p (List.mem_cons_of_mem _ hp)
    rw [diffMapA_cons_some hl]
    simp [hd, ih entries path hlr hdr]

theorem diffMapB_none : ∀ (l entries : List (String × Value)) (path : String),
    (∀ p ∈ l, ∃ w, lookupVal entries p.1 = some w) →
    diffMapB entries l path = [] := by
  intro l
  induction l with
  | nil => intro entries path _; simp [diffMapB]
  | cons q rest ih =>
    intro entries path h
    obtain ⟨k, v⟩ := q
    obtain ⟨w, hw⟩ := h (k, v) (by simp)
    have hr : ∀ p ∈ rest, ∃ w, lookupVal entries p.1 = some w :=
      fun p hp => h p (List.mem_cons_of_mem _ hp)
    simp [diffMapB, hw, ih entries path hr]

theorem diffValue_refl_bounded : ∀ (n : Nat) (v : Value), sizeOf v ≤ n →
    supportedValue v = true → ∀ path, diffValue v v path = .ok [] := by
  intro n
  induction n with
  | zero =>
    intro v hv
    exact absurd hv (by have := value_sizeOf_pos v; omega)
  | succ n ih =>
    intro v hv hs path
    cases v with
    | vint a => simp [diffValue]
    | vstr a => simp [diffValue]
    | vbool a => simp [diffValue]
    | viface => simp [supportedValue] at hs
    | vfunc => simp [supportedValue] at hs
    | vptr elem pointee =>
      cases pointee with
      | none => simp [supportedValue] at hs
      | some w =>
        have hsw : supportedValue w = true := by simpa [supportedValue] using hs
        have hw : sizeOf w ≤ n := by
          have : sizeOf (Value.vptr elem (some w)) ≤ n + 1 := hv
          simp only [Value.vptr.sizeOf_spec, Option.some.sizeOf_spec] at this
          omega
        simp [diffValue, ih w hw hsw path]
    | vslice elem xs =>
      have hse : supportedElems xs = true := by simpa [supportedValue] using hs
      have helem : ∀ x ∈ xs, ∀ p, diffValue x x p = .ok [] := by
        intro x hx p
        have hxb : sizeOf x ≤ n := by
          have h1 := List.sizeOf_lt_of_mem hx
          have : sizeOf (Value.vslice elem xs) ≤ n + 1 := hv
          simp only [Value.vslice.sizeOf_spec] at this
          omega
        exact ih x hxb (supportedElems_mem hse x hx) p
      simp [diffValue, diffArrayOrSlice, diffElems_refl xs helem]
    | vstruct fields =>
      have hsf : supportedFields fields = true := by simpa [supportedValue] using hs
      have hfield : ∀ f ∈ fields, ∀ p, diffValue f.2.2 f.2.2 p = .ok [] := by
        intro f hf p
        have hfb : sizeOf f.2.2 ≤ n := by
          have h1 := List.sizeOf_lt_of_mem hf
          obtain ⟨fn, fx, fv⟩ := f
          have : sizeOf (Value.vstruct fields) ≤ n + 1 := hv
          simp only [Value.vstruct.sizeOf_spec] at this
          simp only [Prod.mk.sizeOf_spec] at h1
          simp only
          omega
        exact ih f.2.2 hfb (supportedFields_mem hsf f hf) p
      simp [diffValue, diffStruct_refl fields hfield]
    | vmap elem entries =>
      have hnd : keysNodup entries = true := by
        have := hs
        simp [supportedValue] at this
        exact this.1
      have hsent : supportedEntries entries = true := by
        have := hs
        simp [supportedValue] at this
        exact this.2
      have hent : ∀ p ∈ entries, ∀ pth, diffValue p.2 p.2 pth = .ok [] := by
        intro p hp pth
        have hpb : sizeOf p.2 ≤ n := by
          have h1 := List.sizeOf_lt_of_mem hp
          obtain ⟨pk, pv⟩ := p
          have : sizeOf (Value.vmap elem entries) ≤ n + 1 := hv
          simp only [Value.vmap.sizeOf_spec] at this
          simp only [Prod.mk.sizeOf_spec] at h1
          simp only
          omega
        exact ih p.2 hpb (supportedEntries_mem hsent p hp) pth
      have hA : diffMapA entries entries path = .ok [] :=
        diffMapA_refl entries entries path
          (fun p hp => by
            obtain ⟨pk, pv⟩ := p
            exact keysNodup_lookup hnd pk pv hp)
          hent
      have hB : diffMapB entries entries path = [] :=
        diffMapB_none entries entries path
          (fun p hp => by
            obtain ⟨pk, pv⟩ := p
            exact lookup_isSome_of_mem pk pv hp)
      simp [diffValue, diffMap, hA, hB, sortChunks]

/-- Claim C2 (counterexample): `Diff(v, v)` does not return an empty chunk
list for every value — diffing a nil pointer against itself panics
(`reflect.Indirect` yields the zero `reflect.Value`, whose methods panic),
so the call neither returns a chunk list nor an error. -/
theorem c2_claim_counterexample :
    Diff (.vptr .int none) (.vptr .int none) = .panicked "reflect: call on zero Value"
  ∧ Diff (.vptr .int none) (.vptr .int none) ≠ .ok [] := by
  constructor
  · simp [Diff, tyOf, tyBeq, diffValue, diffInvalid]
  · intro h
    rw [show Diff (.vptr .int none) (.vptr .int none)
          = .panicked "reflect: call on zero Value" from
        by simp [Diff, tyOf, tyBeq, diffValue, diffInvalid]] at h
    simp at h

/-- Claim C2 (amended): for every value the oracle supports — no interface
or function values, no nil pointers, maps with distinct keys — `Diff(v, v)`
returns an empty chunk list and no error. -/
theorem c2_amended_diff_refl : ∀ v : Value, supportedValue v = true →
    Diff v v = .ok [] := by
  intro v hs
  unfold Diff
  rw [tyBeq_refl (tyOf v)]
  simp [diffValue_refl_bounded (sizeOf v) v (Nat.le_refl _) hs ""]

/-- Witness for C2 at a small compound value. -/
theorem c2_witness :
    Diff (.vstruct [("X", true, .vslice .int [.vint 1, .vint 2])])
         (.vstruct [("X", true, .vslice .int [.vint 1, .vint 2])]) = .ok [] :=
  c2_amended_diff_refl _ (by simp [supportedValue, supportedFields, supportedElems])

theorem diffElems_overbite : ∀ (ys xs : List Value) (path : String) (i : Nat),
    ys.length < xs.length →
    diffElems xs ys path i =
      (match diffElems (xs.take ys.length) ys path i with
       | .ok cs => .ok (cs ++ [⟨xs.drop ys.length, [],
           path ++ "[" ++ toString (i + ys.length) ++ "]"⟩])
       | e => e) := by
  intro ys
  induction ys with
  | nil =>
    intro xs path i h
    cases xs with
    | nil => simp at h
    | cons x xs' => simp [diffElems]
  | cons y ys' ih =>
    intro xs path i h
    cases xs with
    | nil => simp at h
    | cons x xs' =>
      have h' : ys'.length < xs'.length := by simpa using h
      simp only [List.length_cons, List.take_succ_cons, List.drop_succ_cons]
      simp only [diffElems]
      cases hd : diffValue x y (path ++ "[" ++ toString i ++ "]") with
      | ok d =>
        rw [ih xs' path (i + 1) h']
        cases hw : diffElems (xs'.take ys'.length) ys' path (i + 1) with
        | ok cs =>
          rw [show i + 1 + ys'.length = i + (ys'.length + 1) from by omega]
          simp
        | err m => simp
        | panicked m => simp
      | err m => simp
      | panicked m => simp

theorem diffElems_underbite : ∀ (xs ys : List Value) (path : String) (i : Nat),
    xs.length < ys.length →
    diffElems xs ys path i =
      (match diffElems xs (ys.take xs.length) path i with
       | .ok cs => .ok (cs ++ [⟨[], ys.drop xs.length,
           path ++ "[" ++ toString (i + xs.length) ++ "]"⟩])
       | e => e) := by
  intro xs
  induction xs with
  | nil =>
    intro ys path i h
    cases ys with
    | nil => simp at h
    | cons y ys' => simp [diffElems]
  | cons x xs' ih =>
    intro ys path i h
    cases ys with
    | nil => simp at h
    | cons y ys' =>
      have h' : xs'.length < ys'.length := by simpa using h
      simp only [List.length_cons, List.take_succ_cons, List.drop_succ_cons]
      simp only [diffElems]
      cases hd : diffValue x y (path ++ "[" ++ toString i ++ "]") with
      | ok d =>
        rw [ih ys' path (i + 1) h']
        cases hw : diffElems xs' (ys'.take xs'.length) path (i + 1) with
        | ok cs =>
          rw [show i + 1 + xs'.length = i + (xs'.length + 1) from by omega]
          simp
        | err m => simp
        | panicked m => simp
      | err m => simp
      | panicked m => simp

/-- Claim C4: `Diff` on sequences compares elements by position up to the
shorter length (recursing with the path extended by index — the common
prefix is exactly the diff of the truncated sequences), and appends exactly
one trailing chunk at the index equal to the shorter length holding all
surplus elements as pure deletions (left longer) or pure additions (right
longer); e.g. `diff([1,2,3],[1,2])` is exactly one chunk at path index 2
deleting `3`. -/
theorem c4_sequence_overbite :
    (∀ (elem : VTy) (xs ys : List Value),
       Diff (.vslice elem xs) (.vslice elem ys) = diffArrayOrSlice xs ys "")
  ∧ (∀ (xs ys : List Value) (path : String), ys.length < xs.length →
       diffArrayOrSlice xs ys path =
         (match diffArrayOrSlice (xs.take ys.length) ys path with
          | .ok cs => .ok (cs ++ [⟨xs.drop ys.length, [],
              path ++ "[" ++ toString ys.length ++ "]"⟩])
          | e => e))
  ∧ (∀ (xs ys : List Value) (path : String), xs.length < ys.length →
       diffArrayOrSlice xs ys path =
         (match diffArrayOrSlice xs (ys.take xs.length) path with
          | .ok cs => .ok (cs ++ [⟨[], ys.drop xs.length,
              path ++ "[" ++ toString xs.length ++ "]"⟩])
          | e => e))
  ∧ Diff (.vslice .int [.vint 1, .vint 2, .vint 3]) (.vslice .int [.vint 1, .vint 2])
      = .ok [⟨[.vint 3], [], "[2]"⟩]
  ∧ Diff (.vslice .int [.vint 1, .vint 2]) (.vslice .int [.vint 1, .vint 2, .vint 3])
      = .ok [⟨[], [.vint 3], "[2]"⟩] := by
  refine ⟨?_, ?_, ?_, ?_, ?_⟩
  · intro elem xs ys
    simp [Diff, tyOf, tyBeq_refl, diffValue]
  · intro xs ys path h
    simp only [diffArrayOrSlice]
    simpa using diffElems_overbite ys xs path 0 h
  · intro xs ys path h
    simp only [diffArrayOrSlice]
    simpa using diffElems_underbite xs ys path 0 h
  · simp [Diff, tyOf, tyBeq, diffValue, diffArrayOrSlice, diffElems, Changed] <;> rfl
  · simp [Diff, tyOf, tyBeq, diffValue, diffArrayOrSlice, diffElems, Changed] <;> rfl

/-- Witness for C4: the overbite and underbite clauses at concrete
sequences. -/
theorem c4_witness :
    diffArrayOrSlice [Value.vint 7] [] "" =
      (match diffArrayOrSlice (([Value.vint 7] : List Value).take 0) ([] : List Value) "" with
       | .ok cs => .ok (cs ++ [⟨[Value.vint 7], [], "" ++ "[" ++ toString (0 : Nat) ++ "]"⟩])
       | e => e)
  ∧ diffArrayOrSlice [] [Value.vint 7] "" =
      (match diffArrayOrSlice ([] : List Value) (([Value.vint 7] : List Value).take 0) "" with
       | .ok cs => .ok (cs ++ [⟨[], [Value.vint 7], "" ++ "[" ++ toString (0 : Nat) ++ "]"⟩])
       | e => e) :=
  ⟨c4_sequence_overbite.2.1 [Value.vint 7] [] "" (by simp),
   c4_sequence_overbite.2.2.1 [] [Value.vint 7] "" (by simp)⟩

theorem ltChars_trichotomy : ∀ u v : List Char,
    ltChars u v = true ∨ ltChars v u = true ∨ u = v := by
  intro u v
  cases huv : ltChars u v with
  | true => exact Or.inl rfl
  | false =>
    cases hvu : ltChars v u with
    | true => exact Or.inr (Or.inl rfl)
    | false => exact Or.inr (Or.inr (ltChars_eq_of_not u v huv hvu))

theorem ltChars_resolve : ∀ u v w : List Char,
    ltChars u w = true → ltChars u v = true ∨ ltChars v w = true := by
  intro u v w huw
  rcases ltChars_trichotomy u v with h | h | h
  · exact Or.inl h
  · exact Or.inr (ltChars_trans v u w h huw)
  · subst h; exact Or.inr huw

theorem str_eq_of_data_eq : ∀ a b : String, a.data = b.data → a = b := by
  intro a b h
  cases a; cases b
  simp only at h
  rw [h]

instance : IsTotal Chunk chunkLe := by
  constructor
  intro c d
  cases h : goStrLt d.Path c.Path with
  | false => exact Or.inl h
  | true => exact Or.inr (ltChars_asymm _ _ h)

instance : IsTrans Chunk chunkLe := by
  constructor
  intro a b c hab hbc
  unfold chunkLe goStrLt at hab hbc ⊢
  cases hca : ltChars c.Path.data a.Path.data with
  | false => rfl
  | true =>
    exfalso
    rcases ltChars_resolve c.Path.data b.Path.data a.Path.data hca with h | h
    · rw [hbc] at h; exact Bool.noConfusion h
    · rw [hab] at h; exact Bool.noConfusion h

instance : IsAntisymm Chunk chunkLt := by
  constructor
  intro a b hab hba
  unfold chunkLt goStrLt at hab hba
  rw [ltChars_asymm _ _ hab] at hba
  exact Bool.noConfusion hba

theorem chunkLt_of_le_of_ne {c d : Chunk} (hle : chunkLe c d) (hne : c.Path ≠ d.Path) :
    chunkLt c d := by
  unfold chunkLe at hle
  unfold chunkLt
  cases h : goStrLt c.Path d.Path with
  | true => rfl
  | false =>
    exfalso
    exact hne (str_eq_of_data_eq _ _ (ltChars_eq_of_not _ _ h hle))

theorem sortChunks_sorted (l : List Chunk) : List.Sorted chunkLe (sortChunks l) :=
  List.sorted_insertionSort chunkLe l

theorem sortChunks_perm (l : List Chunk) : (sortChunks l).Perm l :=
  List.perm_insertionSort chunkLe l

theorem sorted_chunkLt_of_pairwise_ne {l : List Chunk}
    (hs : List.Sorted chunkLe l) (hne : l.Pairwise fun c d => c.Path ≠ d.Path) :
    List.Sorted chunkLt l :=
  (List.Pairwise.and hs hne).imp fun h => chunkLt_of_le_of_ne h.1 h.2

theorem lookup_mem : ∀ (l : List (String × Value)) (k : String) (v : Value),
    lookupVal l k = some v → (k, v) ∈ l := by
  intro l
  induction l with
  | nil => intro k v h; simp [lookupVal] at h
  | cons q rest ih =>
    intro k v h
    obtain ⟨qk, qv⟩ := q
    by_cases hk : (qk == k) = true
    · have : qk = k := by simpa using hk
      subst this
      simp [lookupVal] at h
      subst h
      simp
    · have hkf : (qk == k) = false := by
        cases hb : (qk == k) with
        | false => rfl
        | true => exact absurd hb hk
      simp only [lookupVal, hkf, Bool.false_eq_true, if_false] at h
      exact List.mem_cons_of_mem _ (ih k v h)

theorem lookup_isSome_congr_of_perm {a' a : List (String × Value)} (hp : a'.Perm a) :
    ∀ k, (lookupVal a' k).isSome = (lookupVal a k).isSome := by
  intro k
  cases h' : lookupVal a' k with
  | some v =>
    have hm : (k, v) ∈ a := hp.subset (lookup_mem a' k v h')
    obtain ⟨w, hw⟩ := lookup_isSome_of_mem k v hm
    simp [hw]
  | none =>
    cases h : lookupVal a k with
    | none => rfl
    | some w =>
      exfalso
      have hm : (k, w) ∈ a' := hp.symm.subset (lookup_mem a k w h)
      obtain ⟨u, hu⟩ := lookup_isSome_of_mem k w hm
      rw [h'] at hu
      exact Option.noConfusion hu

theorem lookup_eq_of_perm_nodup {b' b : List (String × Value)} (hp : b'.Perm b)
    (hnd : keysNodup b = true) : ∀ k, lookupVal b' k = lookupVal b k := by
  intro k
  cases h' : lookupVal b' k with
  | some v =>
    have hm : (k, v) ∈ b := hp.subset (lookup_mem b' k v h')
    exact (keysNodup_lookup hnd k v hm).symm
  | none =>
    cases h : lookupVal b k with
    | none => rfl
    | some w =>
      exfalso
      have hm : (k, w) ∈ b' := hp.symm.subset (lookup_mem b k w h)
      obtain ⟨u, hu⟩ := lookup_isSome_of_mem k w hm
      rw [h'] at hu
      exact Option.noConfusion hu

theorem diffMapA_cons_block (k : String) (v : Value) (rest b : List (String × Value))
    (path : String) :
    diffMapA ((k, v) :: rest) b path =
      (match entryBlock b path k v with
       | .ok blk =>
         (match diffMapA rest b path with
          | .ok diffs => .ok (blk ++ diffs)
          | e => e)
       | e => e) := by
  cases hlk : lookupVal b k with
  | some w =>
    rw [diffMapA_cons_some hlk]
    unfold entryBlock
    rw [hlk]
  | none =>
    rw [diffMapA_cons_none hlk]
    unfold entryBlock
    rw [hlk]
    cases diffMapA rest b path <;> rfl

theorem diffMapB_congr {a' a : List (String × Value)}
    (h : ∀ k, (lookupVal a' k).isSome = (lookupVal a k).isSome) :
    ∀ (l : List (String × Value)) (path : String),
      diffMapB a' l path = diffMapB a l path := by
  intro l
  induction l with
  | nil => intro path; simp [diffMapB]
  | cons q rest ih =>
    intro path
    obtain ⟨k, v⟩ := q
    have hk := h k
    cases ha : lookupVal a k with
    | some w =>
      have hex : ∃ u, lookupVal a' k = some u := by
        rw [ha] at hk
        exact Option.isSome_iff_exists.mp (by simp at hk ⊢; exact hk)
      obtain ⟨u, hu⟩ := hex
      simp [diffMapB, ha, hu, ih]
    | none =>
      have hu : lookupVal a' k = none := by
        cases h' : lookupVal a' k with
        | none => rfl
        | some u => rw [ha, h'] at hk; simp at hk
      simp [diffMapB, ha, hu, ih]

theorem diffMapB_perm {b' b : List (String × Value)} (hp : b'.Perm b) :
    ∀ (a : List (String × Value)) (path : String),
      (diffMapB a b' path).Perm (diffMapB a b path) := by
  induction hp with
  | nil => intro a path; exact .refl _
  | cons x p ih =>
    intro a path
    obtain ⟨k, v⟩ := x
    cases ha : lookupVal a k with
    | some w => simpa [diffMapB, ha] using ih a path
    | none =>
      simpa [diffMapB, ha] using
        (ih a path).cons (Added v (path ++ "[" ++ k ++ "]"))
  | swap x y l =>
    intro a path
    obtain ⟨k₁, v₁⟩ := x
    obtain ⟨k₂, v₂⟩ := y
    cases ha1 : lookupVal a k₁ with
    | some w₁ =>
      cases ha2 : lookupVal a k₂ with
      | some w₂ => simp [diffMapB, ha1, ha2]
      | none => simp [diffMapB, ha1, ha2]
    | none =>
      cases ha2 : lookupVal a k₂ with
      | some w₂ => simp [diffMapB, ha1, ha2]
      | none =>
        simp only [diffMapB, ha1, ha2]
        exact List.Perm.swap _ _ _
  | trans p₁ p₂ ih₁ ih₂ =>
    intro a path
    exact (ih₁ a path).trans (ih₂ a path)

theorem diffMapA_congr {b' b : List (String × Value)}
    (h : ∀ k, lookupVal b' k = lookupVal b k) :
    ∀ (l : List (String × Value)) (path : String),
      diffMapA l b' path = diffMapA l b path := by
  intro l
  induction l with
  | nil => intro path; simp [diffMapA]
  | cons q rest ih =>
    intro path
    obtain ⟨k, v⟩ := q
    cases hb : lookupVal b k with
    | some w =>
      rw [diffMapA_cons_some ((h k).trans hb), diffMapA_cons_some hb, ih]
    | none =>
      rw [diffMapA_cons_none ((h k).trans hb), diffMapA_cons_none hb, ih]

theorem diffMapA_perm {a' a : List (String × Value)} (hp : a'.Perm a) :
    ∀ (b : List (String × Value)) (path : String) (r : List Chunk),
      diffMapA a b path = .ok r →
      ∃ r', diffMapA a' b path = .ok r' ∧ r'.Perm r := by
  induction hp with
  | nil =>
    intro b path r h
    simp [diffMapA] at h
    exact ⟨[], by simp [diffMapA], by rw [← h]⟩
  | @cons x l₁ l₂ p ih =>
    intro b path r h
    obtain ⟨k, v⟩ := x
    rw [diffMapA_cons_block] at h ⊢
    cases heb : entryBlock b path k v with
    | ok blk =>
      rw [heb] at h
      cases hA : diffMapA l₂ b path with
      | ok ds =>
        rw [hA] at h
        have hr : r = blk ++ ds := by injection h with h'; exact h'.symm
        subst hr
        obtain ⟨ds', hA', hperm⟩ := ih b path ds hA
        rw [hA']
        exact ⟨blk ++ ds', rfl, hperm.append_left blk⟩
      | err m => rw [hA] at h; simp at h
      | panicked m => rw [hA] at h; simp at h
    | err m => rw [heb] at h; simp at h
    | panicked m => rw [heb] at h; simp at h
  | @swap x y l =>
    intro b path r h
    obtain ⟨k₁, v₁⟩ := x
    obtain ⟨k₂, v₂⟩ := y
    rw [diffMapA_cons_block] at h
    cases hebx : entryBlock b path k₁ v₁ with
    | ok bx =>
      rw [hebx, diffMapA_cons_block] at h
      cases heby : entryBlock b path k₂ v₂ with
      | ok by_ =>
        rw [heby] at h
        cases hA : diffMapA l b path with
        | ok ds =>
          rw [hA] at h
          have hr : r = bx ++ (by_ ++ ds) := by injection h with h'; exact h'.symm
          subst hr
          rw [diffMapA_cons_block, heby, diffMapA_cons_block, hebx, hA]
          refine ⟨by_ ++ (bx ++ ds), rfl, ?_⟩
          have hcomm := (@List.perm_append_comm _ by_ bx).append_right ds
          simpa [List.append_assoc] using hcomm
        | err m => rw [hA] at h; simp at h
        | panicked m => rw [hA] at h; simp at h
      | err m => rw [heby] at h; simp at h
      | panicked m => rw [heby] at h; simp at h
    | err m => rw [hebx] at h; simp at h
    | panicked m => rw [hebx] at h; simp at h
  | trans p₁ p₂ ih₁ ih₂ =>
    intro b path r h
    obtain ⟨r₂, h₂, hp₂⟩ := ih₂ b path r h
    obtain ⟨r₁, h₁, hp₁⟩ := ih₁ b path r₂ h₂
    exact ⟨r₁, h₁, hp₁.trans hp₂⟩

theorem diffMapA_ok_entry : ∀ (l b : List (String × Value)) (path : String) (r : List Chunk),
    diffMapA l b path = .ok r →
    ∀ k va, (k, va) ∈ l →
      ((∀ vb, lookupVal b k = some vb →
          ∃ cs, diffValue va vb (path ++ "[" ++ k ++ "]") = .ok cs ∧ ∀ c ∈ cs, c ∈ r)
       ∧ (lookupVal b k = none → Removed va (path ++ "[" ++ k ++ "]") ∈ r)) := by
  intro l
  induction l with
  | nil =>
    intro b path r h k va hm
    simp at hm
  | cons q rest ih =>
    intro b path r h k va hm
    obtain ⟨qk, qv⟩ := q
    rw [diffMapA_cons_block] at h
    cases heb : entryBlock b path qk qv with
    | ok blk =>
      rw [heb] at h
      cases hA : diffMapA rest b path with
      | ok ds =>
        rw [hA] at h
        have hr : r = blk ++ ds := by injection h with h'; exact h'.symm
        subst hr
        rcases List.mem_cons.mp hm with heq | hmem
        · injection heq with h1 h2
          subst h1
          subst h2
          constructor
          · intro vb hvb
            refine ⟨blk, ?_, fun c hc => List.mem_append_left _ hc⟩
            unfold entryBlock at heb
            rw [hvb] at heb
            exact heb
          · intro hnone
            unfold entryBlock at heb
            rw [hnone] at heb
            have hblk : blk = [Removed va (path ++ "[" ++ k ++ "]")] := by
              injection heb with h'
              exact h'.symm
            subst hblk
            simp
        · have hrest := ih b path ds hA k va hmem
          constructor
          · intro vb hvb
            obtain ⟨cs, hcs, hsub⟩ := hrest.1 vb hvb
            exact ⟨cs, hcs, fun c hc => List.mem_append_right _ (hsub c hc)⟩
          · intro hnone
            exact List.mem_append_right _ (hrest.2 hnone)
      | err m => rw [hA] at h; simp at h
      | panicked m => rw [hA] at h; simp at h
    | err m => rw [heb] at h; simp at h
    | panicked m => rw [heb] at h; simp at h

theorem diffMapB_mem : ∀ (l a : List (String × Value)) (path k : String) (vb : Value),
    (k, vb) ∈ l → lookupVal a k = none →
    Added vb (path ++ "[" ++ k ++ "]") ∈ diffMapB a l path := by
  intro l
  induction l with
  | nil =>
    intro a path k vb hm _
    simp at hm
  | cons q rest ih =>
    intro a path k vb hm hnone
    obtain ⟨qk, qv⟩ := q
    rcases List.mem_cons.mp hm with heq | hmem
    · injection heq with h1 h2
      subst h1
      subst h2
      simp [diffMapB, hnone]
    · cases ha : lookupVal a qk with
      | some w => simpa [diffMapB, ha] using ih a path k vb hmem hnone
      | none =>
        simp only [diffMapB, ha]
        exact List.mem_cons_of_mem _ (ih a path k vb hmem hnone)

theorem diffMap_ok_elim {eT eA eB : VTy} {a b : List (String × Value)} {path : String}
    {out : List Chunk}
    (h : diffMap (.vmap eA a) (.vmap eB b) eT path = .ok out) :
    ∃ la, diffMapA a b path = .ok la ∧ out = sortChunks (la ++ diffMapB a b path) := by
  simp only [diffMap] at h
  cases hA : diffMapA a b path with
  | ok la =>
    rw [hA] at h
    refine ⟨la, rfl, ?_⟩
    injection h with h'
    exact h'.symm
  | err m => rw [hA] at h; simp at h
  | panicked m => rw [hA] at h; simp at h

theorem diffMap_ok_intro {eT eA eB : VTy} {a b : List (String × Value)} {path : String}
    {la : List Chunk} (hA : diffMapA a b path = .ok la) :
    diffMap (.vmap eA a) (.vmap eB b) eT path
      = .ok (sortChunks (la ++ diffMapB a b path)) := by
  simp only [diffMap]
  rw [hA]

/-- Claim C5 (counterexample): the chunk list of a map diff is sorted
lexically by path, but that does not make the output independent of the
mappings' iteration order — two keys can produce chunks with the *same*
path (here `"a"` with a nested index and the key `"a][0"`), and then the
sort leaves them in iteration order.  The two calls below diff the same
mapping (the entry lists are permutations of each other, with distinct
keys) against the same right-hand mapping and yield differently ordered
chunk lists. -/
theorem c5_claim_counterexample :
    Diff (.vmap (.slice .int) [("a", .vslice .int [.vint 1]), ("a][0", .vslice .int [.vint 2])])
         (.vmap (.slice .int) [("a", .vslice .int [.vint 9])])
      = .ok [Changed (.vint 1) (.vint 9) "[a][0]", Removed (.vslice .int [.vint 2]) "[a][0]"]
  ∧ Diff (.vmap (.slice .int) [("a][0", .vslice .int [.vint 2]), ("a", .vslice .int [.vint 1])])
         (.vmap (.slice .int) [("a", .vslice .int [.vint 9])])
      = .ok [Removed (.vslice .int [.vint 2]) "[a][0]", Changed (.vint 1) (.vint 9) "[a][0]"]
  ∧ ([("a][0", Value.vslice .int [.vint 2]), ("a", Value.vslice .int [.vint 1])]).Perm
      [("a", Value.vslice .int [.vint 1]), ("a][0", Value.vslice .int [.vint 2])]
  ∧ keysNodup [("a", .vslice .int [.vint 1]), ("a][0", .vslice .int [.vint 2])] = true
  ∧ ([Changed (.vint 1) (.vint 9) "[a][0]", Removed (.vslice .int [.vint 2]) "[a][0]"]
       ≠ [Removed (.vslice .int [.vint 2]) "[a][0]", Changed (.vint 1) (.vint 9) "[a][0]"]) := by
  have h1 : lookupVal [("a", Value.vslice .int [.vint 9])] "a"
      = some (Value.vslice .int [.vint 9]) := rfl
  have h2 : lookupVal [("a", Value.vslice .int [.vint 9])] "a][0" = none := rfl
  have hd : diffValue (Value.vslice .int [.vint 1]) (Value.vslice .int [.vint 9])
      ("" ++ "[" ++ "a" ++ "]")
      = .ok [Changed (.vint 1) (.vint 9) "[a][0]"] := by
    rw [show diffValue (Value.vslice .int [.vint 1]) (Value.vslice .int [.vint 9])
          ("" ++ "[" ++ "a" ++ "]")
        = diffArrayOrSlice [.vint 1] [.vint 9] ("" ++ "[" ++ "a" ++ "]") from by
      simp only [diffValue]]
    rw [show diffArrayOrSlice [Value.vint 1] [Value.vint 9] ("" ++ "[" ++ "a" ++ "]")
        = diffElems [.vint 1] [.vint 9] ("" ++ "[" ++ "a" ++ "]") 0 from by
      simp only [diffArrayOrSlice]]
    simp only [diffElems, diffValue]
    rfl
  have h0 : diffMapA ([] : List (String × Value)) [("a", Value.vslice .int [.vint 9])] ""
      = .ok [] := by
    simp only [diffMapA]
  have hA1 : diffMapA [("a", Value.vslice .int [.vint 1]), ("a][0", Value.vslice .int [.vint 2])]
      [("a", Value.vslice .int [.vint 9])] ""
      = .ok [Changed (.vint 1) (.vint 9) "[a][0]",
             Removed (Value.vslice .int [.vint 2]) "[a][0]"] := by
    rw [diffMapA_cons_some h1, hd, diffMapA_cons_none h2, h0]
    rfl
  have hA2 : diffMapA [("a][0", Value.vslice .int [.vint 2]), ("a", Value.vslice .int [.vint 1])]
      [("a", Value.vslice .int [.vint 9])] ""
      = .ok [Removed (Value.vslice .int [.vint 2]) "[a][0]",
             Changed (.vint 1) (.vint 9) "[a][0]"] := by
    rw [diffMapA_cons_none h2, diffMapA_cons_some h1, hd, h0]
    rfl
  have hM1 : diffMap
      (.vmap (.slice .int) [("a", Value.vslice .int [.vint 1]), ("a][0", Value.vslice .int [.vint 2])])
      (.vmap (.slice .int) [("a", Value.vslice .int [.vint 9])]) (.slice .int) ""
      = .ok (sortChunks
          ([Changed (.vint 1) (.vint 9) "[a][0]", Removed (Value.vslice .int [.vint 2]) "[a][0]"]
            ++ diffMapB
                [("a", Value.vslice .int [.vint 1]), ("a][0", Value.vslice .int [.vint 2])]
                [("a", Value.vslice .int [.vint 9])] "")) :=
    diffMap_ok_intro hA1
  have hM2 : diffMap
      (.vmap (.slice .int) [("a][0", Value.vslice .int [.vint 2]), ("a", Value.vslice .int [.vint 1])])
      (.vmap (.slice .int) [("a", Value.vslice .int [.vint 9])]) (.slice .int) ""
      = .ok (sortChunks
          ([Removed (Value.vslice .int [.vint 2]) "[a][0]", Changed (.vint 1) (.vint 9) "[a][0]"]
            ++ diffMapB
                [("a][0", Value.vslice .int [.vint 2]), ("a", Value.vslice .int [.vint 1])]
                [("a", Value.vslice .int [.vint 9])] "")) :=
    diffMap_ok_intro hA2
  rw [show diffMapB [("a", Value.vslice .int [.vint 1]), ("a][0", Value.vslice .int [.vint 2])]
        [("a", Value.vslice .int [.vint 9])] "" = [] from rfl] at hM1
  rw [show diffMapB [("a][0", Value.vslice .int [.vint 2]), ("a", Value.vslice .int [.vint 1])]
        [("a", Value.vslice .int [.vint 9])] "" = [] from rfl] at hM2
  rw [show sortChunks
        ([Changed (.vint 1) (.vint 9) "[a][0]", Removed (Value.vslice .int [.vint 2]) "[a][0]"]
          ++ []) = [Changed (.vint 1) (.vint 9) "[a][0]",
                    Removed (Value.vslice .int [.vint 2]) "[a][0]"] from rfl] at hM1
  rw [show sortChunks
        ([Removed (Value.vslice .int [.vint 2]) "[a][0]", Changed (.vint 1) (.vint 9) "[a][0]"]
          ++ []) = [Removed (Value.vslice .int [.vint 2]) "[a][0]",
                    Changed (.vint 1) (.vint 9) "[a][0]"] from rfl] at hM2
  have hdv1 : Diff
      (.vmap (.slice .int) [("a", Value.vslice .int [.vint 1]), ("a][0", Value.vslice .int [.vint 2])])
      (.vmap (.slice .int) [("a", Value.vslice .int [.vint 9])])
      = diffMap
        (.vmap (.slice .int) [("a", Value.vslice .int [.vint 1]), ("a][0", Value.vslice .int [.vint 2])])
        (.vmap (.slice .int) [("a", Value.vslice .int [.vint 9])]) (.slice .int) "" := by
    unfold Diff
    rw [show tyBeq
        (tyOf (.vmap (.slice .int)
          [("a", Value.vslice .int [.vint 1]), ("a][0", Value.vslice .int [.vint 2])]))
        (tyOf (.vmap (.slice .int) [("a", Value.vslice .int [.vint 9])])) = true from by
      simp [tyOf, tyBeq]]
    simp only [if_true]
    simp only [diffValue]
  have hdv2 : Diff
      (.vmap (.slice .int) [("a][0", Value.vslice .int [.vint 2]), ("a", Value.vslice .int [.vint 1])])
      (.vmap (.slice .int) [("a", Value.vslice .int [.vint 9])])
      = diffMap
        (.vmap (.slice .int) [("a][0", Value.vslice .int [.vint 2]), ("a", Value.vslice .int [.vint 1])])
        (.vmap (.slice .int) [("a", Value.vslice .int [.vint 9])]) (.slice .int) "" := by
    unfold Diff
    rw [show tyBeq
        (tyOf (.vmap (.slice .int)
          [("a][0", Value.vslice .int [.vint 2]), ("a", Value.vslice .int [.vint 1])]))
        (tyOf (.vmap (.slice .int) [("a", Value.vslice .int [.vint 9])])) = true from by
      simp [tyOf, tyBeq]]
    simp only [if_true]
    simp only [diffValue]
  refine ⟨hdv1.trans hM1, hdv2.trans hM2, List.Perm.swap _ _ _, by rfl, ?_⟩
  intro h
  simp [Changed, Removed] at h

/-- Claim C5 (amended): a map diff recurses on shared keys with the path
extended by the key, reports left-only keys as pure deletions and
right-only keys as pure additions, and returns the chunk list sorted
lexically by path.  The chunk *multiset* is independent of the mappings'
iteration order, and whenever the resulting chunks have pairwise distinct
paths (in particular whenever distinct keys yield distinct paths) the
entire output — order included — is independent of iteration order; with
colliding paths only the sorted order can differ. -/
theorem c5_amended_map_diff :
    ∀ (elemT : VTy) (a b : List (String × Value)) (path : String) (out : List Chunk),
      diffMap (.vmap elemT a) (.vmap elemT b) elemT path = .ok out →
        List.Sorted chunkLe out
      ∧ (∀ k va vb, (k, va) ∈ a → lookupVal b k = some vb →
           ∃ cs, diffValue va vb (path ++ "[" ++ k ++ "]") = .ok cs ∧ ∀ c ∈ cs, c ∈ out)
      ∧ (∀ k va, (k, va) ∈ a → lookupVal b k = none →
           Removed va (path ++ "[" ++ k ++ "]") ∈ out)
      ∧ (∀ k vb, (k, vb) ∈ b → lookupVal a k = none →
           Added vb (path ++ "[" ++ k ++ "]") ∈ out)
      ∧ (∀ a' b', a'.Perm a → b'.Perm b → keysNodup b = true →
           out.Pairwise (fun c d => c.Path ≠ d.Path) →
           diffMap (.vmap elemT a') (.vmap elemT b') elemT path = .ok out) := by
  intro elemT a b path out h
  obtain ⟨la, hA, hout⟩ := diffMap_ok_elim h
  have hperm_out : out.Perm (la ++ diffMapB a b path) := hout ▸ sortChunks_perm _
  refine ⟨?_, ?_, ?_, ?_, ?_⟩
  · rw [hout]
    exact sortChunks_sorted _
  · intro k va vb hm hvb
    obtain ⟨cs, hcs, hsub⟩ := (diffMapA_ok_entry a b path la hA k va hm).1 vb hvb
    exact ⟨cs, hcs, fun c hc => hperm_out.mem_iff.mpr (List.mem_append_left _ (hsub c hc))⟩
  · intro k va hm hnone
    exact hperm_out.mem_iff.mpr
      (List.mem_append_left _ ((diffMapA_ok_entry a b path la hA k va hm).2 hnone))
  · intro k vb hm hnone
    exact hperm_out.mem_iff.mpr
      (List.mem_append_right _ (diffMapB_mem b a path k vb hm hnone))
  · intro a' b' ha' hb' hnd hne
    have hlook : ∀ k, lookupVal b' k = lookupVal b k := lookup_eq_of_perm_nodup hb' hnd
    obtain ⟨la', hA', hpermA⟩ := diffMapA_perm ha' b path la hA
    have hBsome : ∀ k, (lookupVal a' k).isSome = (lookupVal a k).isSome :=
      lookup_isSome_congr_of_perm ha'
    have hBcongr : diffMapB a' b' path = diffMapB a b' path := diffMapB_congr hBsome b' path
    have hBperm : (diffMapB a b' path).Perm (diffMapB a b path) := diffMapB_perm hb' a path
    have hres : diffMap (.vmap elemT a') (.vmap elemT b') elemT path
        = .ok (sortChunks (la' ++ diffMapB a' b' path)) :=
      diffMap_ok_intro (by rw [diffMapA_congr hlook a' path]; exact hA')
    have hX : (la' ++ diffMapB a' b' path).Perm (la ++ diffMapB a b path) := by
      rw [hBcongr]
      exact hpermA.append hBperm
    have hout' : (sortChunks (la' ++ diffMapB a' b' path)).Perm out :=
      (sortChunks_perm _).trans (hX.trans hperm_out.symm)
    have hs1 : List.Sorted chunkLt out :=
      sorted_chunkLt_of_pairwise_ne (hout ▸ sortChunks_sorted _) hne
    have hne' : (sortChunks (la' ++ diffMapB a' b' path)).Pairwise
        (fun c d => c.Path ≠ d.Path) :=
      (List.Perm.pairwise_iff (fun hcd => Ne.symm hcd) hout').mpr hne
    have hs2 : List.Sorted chunkLt (sortChunks (la' ++ diffMapB a' b' path)) :=
      sorted_chunkLt_of_pairwise_ne (sortChunks_sorted _) hne'
    rw [hres, List.eq_of_perm_of_sorted hout' hs2 hs1]

/-- Witness for C5 at a two-entry mapping diffed against the empty mapping:
the output is sorted, contains the deletion chunks, and is reproduced
verbatim when the entry list is permuted. -/
theorem c5_witness :
    List.Sorted chunkLe
      [Removed (Value.vint 1) "[x]", Removed (Value.vint 2) "[y]"]
  ∧ Removed (Value.vint 1) ("" ++ "[" ++ "x" ++ "]")
      ∈ [Removed (Value.vint 1) "[x]", Removed (Value.vint 2) "[y]"]
  ∧ diffMap (.vmap .int [("y", Value.vint 2), ("x", Value.vint 1)]) (.vmap .int []) .int ""
      = .ok [Removed (Value.vint 1) "[x]", Removed (Value.vint 2) "[y]"] := by
  have hx : lookupVal ([] : List (String × Value)) "x" = none := rfl
  have hy : lookupVal ([] : List (String × Value)) "y" = none := rfl
  have h0 : diffMapA ([] : List (String × Value)) ([] : List (String × Value)) ""
      = .ok [] := by
    simp only [diffMapA]
  have hA : diffMapA [("x", Value.vint 1), ("y", Value.vint 2)]
      ([] : List (String × Value)) ""
      = .ok [Removed (Value.vint 1) "[x]", Removed (Value.vint 2) "[y]"] := by
    rw [diffMapA_cons_none hx, diffMapA_cons_none hy, h0]
    rfl
  have h : diffMap (.vmap .int [("x", Value.vint 1), ("y", Value.vint 2)])
      (.vmap .int []) .int ""
      = .ok [Removed (Value.vint 1) "[x]", Removed (Value.vint 2) "[y]"] := by
    have hM : diffMap (.vmap .int [("x", Value.vint 1), ("y", Value.vint 2)])
        (.vmap .int ([] : List (String × Value))) .int ""
        = .ok (sortChunks
            ([Removed (Value.vint 1) "[x]", Removed (Value.vint 2) "[y]"]
              ++ diffMapB [("x", Value.vint 1), ("y", Value.vint 2)]
                  ([] : List (String × Value)) "")) :=
      diffMap_ok_intro hA
    rw [show diffMapB [("x", Value.vint 1), ("y", Value.vint 2)]
          ([] : List (String × Value)) "" = [] from rfl] at hM
    rw [show sortChunks
          ([Removed (Value.vint 1) "[x]", Removed (Value.vint 2) "[y]"] ++ [])
        = [Removed (Value.vint 1) "[x]", Removed (Value.vint 2) "[y]"] from rfl] at hM
    exact hM
  have hall := c5_amended_map_diff .int [("x", Value.vint 1), ("y", Value.vint 2)] [] "" _ h
  refine ⟨hall.1, ?_, ?_⟩
  · exact hall.2.2.1 "x" (Value.vint 1) (by simp) (by rfl)
  · exact hall.2.2.2.2 [("y", Value.vint 2), ("x", Value.vint 1)] []
      (List.Perm.swap _ _ _) (List.Perm.refl _) (by rfl)
      (by simp [Removed])
